import Mathlib

/-!
Verification development for the LSPTracer analysis engine (Go).

The Go sources are shallowly embedded: Go byte strings are modelled as
`List Char` where each `Char` stands for one byte (all inputs of interest
are ASCII; multi-byte UTF-8 sequences would appear as several byte-chars),
pure functions become Lean functions, and the stateful tracer becomes
explicit state passing with a fuel bound on the recursion depth.
-/

namespace LSPTracer

/-- Go byte strings, modelled as lists of characters. -/
abbrev GoStr := List Char

/-- Shorthand turning a Lean string literal into a `GoStr`. -/
def gs (s : String) : GoStr := s.toList

/-- Whitespace class used by Go `strings.TrimSpace` (ASCII part of `unicode.IsSpace`). -/
def isGoSpace (c : Char) : Bool :=
  c = ' ' || c = '\t' || c = '\n' || c = '\x0b' || c = '\x0c' || c = '\r'

/-- Embedding of Go `strings.TrimSpace` (on ASCII input): drop leading and
trailing whitespace. -/
def trimSpace (s : GoStr) : GoStr :=
  ((s.dropWhile isGoSpace).reverse.dropWhile isGoSpace).reverse

/-- Embedding of Go `strings.Contains(hay, needle)`: substring test. -/
def containsSub (needle : GoStr) : GoStr → Bool
  | [] => needle.isEmpty
  | c :: rest => needle.isPrefixOf (c :: rest) || containsSub needle rest

/-- Index of the first occurrence of character `c` (Go `strings.Index` with a
one-character needle), `none` for Go's `-1`. -/
def idxOfChar (c : Char) (s : GoStr) : Option Nat := s.findIdx? (fun x => x = c)

/-- Index of the last occurrence of character `c` (Go `strings.LastIndex` with a
one-character needle), `none` for Go's `-1`. -/
def lastIdxOfChar (c : Char) (s : GoStr) : Option Nat :=
  match s.reverse.findIdx? (fun x => x = c) with
  | some k => some (s.length - 1 - k)
  | none => none

/-- Embedding of `extractArgs` (internal/analysis utils): the trimmed text
between the first `(` and the last `)` of the line, or `""` when absent. -/
def extractArgs (code : GoStr) : GoStr :=
  match idxOfChar '(' code, lastIdxOfChar ')' code with
  | some s, some e => if s < e then trimSpace ((code.drop (s + 1)).take (e - s - 1)) else []
  | _, _ => []

/-- ASCII digit test. -/
def isDigitCh (c : Char) : Bool := '0' ≤ c && c ≤ '9'

/-- Embedding of `isNumber` (internal/analysis utils): Go regexp match against
the anchored pattern for an optional minus, digits, and an optional fractional
part. -/
def isNumber (s : GoStr) : Bool :=
  let t := match s with | '-' :: r => r | _ => s
  let ds := t.takeWhile isDigitCh
  let rest := t.dropWhile isDigitCh
  !ds.isEmpty &&
    (rest.isEmpty ||
      (match rest with
       | '.' :: fs => !fs.isEmpty && fs.all isDigitCh
       | _ => false))

/-- Remainder of the input after its first `"` character, `none` when there is
no `"`. Helper for `removeQuoted`. -/
def dropToQuote : GoStr → Option GoStr
  | [] => none
  | '"' :: r => some r
  | _ :: r => dropToQuote r

/-- Worker for `removeQuoted`; the fuel argument only bounds the recursion and
is always at least the length of the string, so the `0` case is never reached
on the initial call. -/
def removeQuotedAux : Nat → GoStr → GoStr
  | 0, s => s
  | _ + 1, [] => []
  | fuel + 1, c :: r =>
    if c = '"' then
      match dropToQuote r with
      | some rest => removeQuotedAux fuel rest
      | none => c :: r
    else c :: removeQuotedAux fuel r

/-- Embedding of the Go regexp replacement deleting every quoted region
(leftmost-first, non-overlapping; a quote with no later closing quote is kept
together with everything after it, exactly as the Go pattern leaves it
unmatched). -/
def removeQuoted (s : GoStr) : GoStr := removeQuotedAux s.length s

/-- Embedding of `isStrictConstant` (internal/analysis utils). -/
def isStrictConstant (expr0 : GoStr) : Bool :=
  let expr := trimSpace expr0
  if expr.isEmpty then true
  else if isNumber expr || expr = gs "true" || expr = gs "false" || expr = gs "null" then true
  else if (gs ".class").isSuffixOf expr then true
  else if !(expr.contains '"') then false
  else
    let noStr := removeQuoted expr
    let clean := (noStr.filter (fun c => !(c = '+'))).filter (fun c => !(c = ' '))
    if clean.length > 0 then false else true

/-- The strict-constant decision exactly as the specification words it: a
disjunction over the trimmed expression — empty, or numeric/boolean/null
literal, or a `.class` type literal, or it contains a double quote and after
deleting every quoted region and removing all `+` and space characters nothing
remains. -/
def strictConstantSpec (s : GoStr) : Bool :=
  let t := trimSpace s
  t.isEmpty || isNumber t || t = gs "true" || t = gs "false" || t = gs "null"
    || (gs ".class").isSuffixOf t
    || (t.contains '"' &&
        (((removeQuoted t).filter (fun c => !(c = '+'))).filter (fun c => !(c = ' '))).isEmpty)

/-- Embedding of `extractRHS` (internal/analysis utils): text after the first
`=`, with one trailing `;` removed; the whole line when there is no `=`. -/
def extractRHS (code : GoStr) : GoStr :=
  match idxOfChar '=' code with
  | some i =>
    let rhs := code.drop (i + 1)
    if (gs ";").isSuffixOf rhs then rhs.take (rhs.length - 1) else rhs
  | none => code

/-- Whitespace class of the Go regexp escape for whitespace (Perl class:
tab, newline, form feed, carriage return, space). -/
def isRegexSpace (c : Char) : Bool :=
  c = '\t' || c = '\n' || c = '\x0c' || c = '\r' || c = ' '

/-- Word characters for the Go regexp word-boundary assertion. -/
def isWordCh (c : Char) : Bool :=
  isDigitCh c || ('a' ≤ c && c ≤ 'z') || ('A' ≤ c && c ≤ 'Z') || c = '_'

/-- Match, at the head of `text`, the sink pattern that `Compile`
(internal/model) builds for an ordinary method: a literal dot, the quoted
method name, optional whitespace, then an open parenthesis. -/
def matchDotMethodAt (method : GoStr) (text : GoStr) : Bool :=
  match text with
  | '.' :: r =>
    method.isPrefixOf r &&
      (match (r.drop method.length).dropWhile isRegexSpace with
       | '(' :: _ => true
       | _ => false)
  | _ => false

/-- Match, at the head of `text`, the sink pattern that `Compile`
(internal/model) builds for a constructor: the literal `new`, mandatory
whitespace, the quoted short class name, optional whitespace, then an open
parenthesis. Faithful to the regexp for short class names that do not start
with a whitespace character (all real class names). -/
def matchInitAt (shortClass : GoStr) (text : GoStr) : Bool :=
  (gs "new").isPrefixOf text &&
    (let r := text.drop 3
     !(r.takeWhile isRegexSpace).isEmpty &&
       (let r2 := r.dropWhile isRegexSpace
        shortClass.isPrefixOf r2 &&
          (match (r2.drop shortClass.length).dropWhile isRegexSpace with
           | '(' :: _ => true
           | _ => false)))

/-- Leftmost match position of an anchored-at-a-position matcher, modelling Go
`Regexp.FindStringIndex` (start offset only, `none` for no match). -/
def firstMatchIdx (p : GoStr → Bool) : GoStr → Option Nat
  | [] => if p [] then some 0 else none
  | c :: r => if p (c :: r) then some 0 else (firstMatchIdx p r).map (· + 1)

/-- Embedding of `model.SinkRule` (internal/model/rules.go). The compiled
`Pattern` field is not stored: every rule handed to the scanner has it bound
by `Compile`/`GetBuiltinRules`, deterministically from `methodName` and
`className`, and `ruleMatchIdx` below applies exactly that derived pattern. -/
structure SinkRule where
  name : GoStr
  vulnType : GoStr
  desc : GoStr
  severity : GoStr
  className : GoStr
  methodName : GoStr
  skipSafe : Bool
  isStatic : Bool
deriving DecidableEq, Repr

/-- Short class name: text after the last dot of the fully qualified name
(as computed in `Compile` and `GetBuiltinRules`). -/
def shortClassOf (className : GoStr) : GoStr :=
  match lastIdxOfChar '.' className with
  | some i => className.drop (i + 1)
  | none => className

/-- Result of `rule.Pattern.FindStringIndex(text)` for the pattern `Compile`
assigns: the constructor shape for `<init>`, the dot-method shape otherwise. -/
def ruleMatchIdx (r : SinkRule) (text : GoStr) : Option Nat :=
  if r.methodName = gs "<init>" then firstMatchIdx (matchInitAt (shortClassOf r.className)) text
  else firstMatchIdx (matchDotMethodAt r.methodName) text

/-- Comment-line test of `findCandidates` (internal/analysis/scanner.go): the
trimmed line starts with a line comment, a block-comment continuation star, or
a block-comment opener. -/
def scannerSkipsLine (text : GoStr) : Bool :=
  (gs "//").isPrefixOf text || (gs "*").isPrefixOf text || (gs "/*").isPrefixOf text

/-- Embedding of the scanner's `candidate` record. -/
structure Candidate where
  file : GoStr
  line : Nat
  col : Nat
  code : GoStr
  rule : SinkRule
deriving DecidableEq, Repr

/-- Per-line body of `findCandidates` (internal/analysis/scanner.go): the
candidates appended while scanning one raw source line against the rule list,
in rule order. -/
def lineCandidates (rules : List SinkRule) (path : GoStr) (lineNum : Nat)
    (raw : GoStr) : List Candidate :=
  let text := trimSpace raw
  if scannerSkipsLine text then []
  else rules.filterMap fun rule =>
    match ruleMatchIdx rule text with
    | none => none
    | some idx =>
      if rule.skipSafe && isStrictConstant (extractArgs text) then none
      else some ⟨path, lineNum, idx, text, rule⟩

/-- Embedding of `findCandidates` restricted to a single already-walked file:
the per-line scan over the file's lines (0-based line numbers), appending in
line order. -/
def findCandidatesInFile (rules : List SinkRule) (path : GoStr)
    (fileLines : List GoStr) : List Candidate :=
  fileLines.enum.flatMap fun li => lineCandidates rules path li.1 li.2

/-- The built-in RCE rule for `java.lang.Runtime.exec` from `GetBuiltinRules`
(internal/model/rules.go): `skip_safe = true`, non-static, with the derived
default name. -/
def rceRuntimeExec : SinkRule :=
  { name := gs "RCE (Runtime.exec)"
  , vulnType := gs "RCE"
  , desc := gs "任意代码执行漏洞"
  , severity := gs "High"
  , className := gs "java.lang.Runtime"
  , methodName := gs "exec"
  , skipSafe := true
  , isStatic := false }

/-- Is the path absolute (Go `filepath.IsAbs` on Unix: a `/` prefix)? -/
def isAbsPath (p : GoStr) : Bool := (gs "/").isPrefixOf p

/-- Element processing of Go `path/filepath.Clean`: empty and `.` elements are
dropped; `..` pops the last real element, is kept when the path is relative
and there is nothing left to pop, and is dropped at the root. `out` is the
output stack, most recent element first. -/
def cleanElems (rooted : Bool) (out : List GoStr) : List GoStr → List GoStr
  | [] => out.reverse
  | e :: rest =>
    if e = [] || e = gs "." then cleanElems rooted out rest
    else if e = gs ".." then
      match out with
      | o :: os =>
        if !(o = gs "..") then cleanElems rooted os rest
        else if !rooted then cleanElems rooted ((gs "..") :: out) rest
        else cleanElems rooted out rest
      | [] =>
        if !rooted then cleanElems rooted [gs ".."] rest
        else cleanElems rooted [] rest
    else cleanElems rooted (e :: out) rest

/-- Embedding of Go `path/filepath.Clean` on Unix (equal, element by element,
to Go's in-place algorithm). -/
def goClean (p : GoStr) : GoStr :=
  if p = [] then gs "."
  else
    let rooted := isAbsPath p
    let elems := cleanElems rooted [] (p.splitOn '/')
    let body := List.intercalate (gs "/") elems
    let res := if rooted then '/' :: body else body
    if res = [] then gs "." else res

/-- Embedding of Go `path/filepath.Abs` on Unix against working directory
`wd`: clean an absolute path, join a relative one onto `wd` and clean. -/
def goAbs (wd : GoStr) (p : GoStr) : GoStr :=
  if isAbsPath p then goClean p else goClean (wd ++ '/' :: p)

/-- Embedding of `NormalizePath` (internal/lsp/uri.go) on Linux:
`filepath.Abs`, with no case folding (that only happens on Windows/macOS). -/
def normalizePath (wd : GoStr) (p : GoStr) : GoStr := goAbs wd p

/-- Embedding of Go `path/filepath.Ext`: the suffix starting at the last dot
in the final path element, empty when that element has no dot. -/
def goExt (p : GoStr) : GoStr :=
  let rseg := p.reverse.takeWhile (fun c => c ≠ '/')
  match rseg.span (fun c => c ≠ '.') with
  | (pre, '.' :: _) => '.' :: pre.reverse
  | _ => []

/-- Uppercase hexadecimal digit of a nibble (Go `upperhex` table);
48 is the code of `0` and 55 + 10 that of `A`. -/
def hexDigitU (n : Nat) : Char :=
  Char.ofNat (if n < 10 then n + 48 else n + 55)

/-- Byte-escaping decision of `net/url` in path-encoding mode: keep ASCII
alphanumerics, the RFC 3986 unreserved marks, and the sub-delimiters that the
path encoder preserves; escape everything else (including `?`, `%`, `#`,
space, and every byte outside ASCII). -/
def shouldEscapePathByte (c : Char) : Bool :=
  !(('a' ≤ c && c ≤ 'z') || ('A' ≤ c && c ≤ 'Z') || isDigitCh c
    || c = '-' || c = '_' || c = '.' || c = '~'
    || c = '$' || c = '&' || c = '+' || c = ',' || c = '/' || c = ':' || c = ';' || c = '='
    || c = '@')

/-- Percent-escaping of a path as performed by `net/url` `URL.String`
(byte-wise; each `Char` models one byte). -/
def escapePath : GoStr → GoStr
  | [] => []
  | c :: r =>
    (if shouldEscapePathByte c then
      ['%', hexDigitU (c.toNat / 16 % 16), hexDigitU (c.toNat % 16)]
    else [c]) ++ escapePath r

/-- Value of an ASCII hexadecimal digit (Go `unhex`), `none` otherwise;
decimal digits occupy codes 48-57, the hex letter ranges start at 97 (`a`)
and 65 (`A`). -/
def hexVal (c : Char) : Option Nat :=
  let n := c.toNat
  if 48 ≤ n ∧ n ≤ 57 then some (n - 48)
  else if 97 ≤ n ∧ n ≤ 102 then some (n - 87)
  else if 65 ≤ n ∧ n ≤ 70 then some (n - 55)
  else none

/-- Percent-decoding of a path as in `net/url` `unescape` in path mode: `%XX`
with two hex digits decodes to one byte, a malformed escape is an error
(`none`), and every other byte is kept. -/
def unescapePath : GoStr → Option GoStr
  | [] => some []
  | c :: r =>
    if c = '%' then
      match r with
      | h1 :: h2 :: r2 =>
        (match hexVal h1, hexVal h2 with
         | some v1, some v2 => (unescapePath r2).map (fun t => Char.ofNat (16 * v1 + v2) :: t)
         | _, _ => none)
      | _ => none
    else (unescapePath r).map (fun t => c :: t)

/-- Embedding of `ToUri` (internal/lsp/uri.go) on Linux: make the path
absolute against working directory `wd` (`filepath.Abs`) and render the
`file://` URL with percent-escaping, exactly as `url.URL.String` does for a
URL with scheme `file`, empty host, and that path. -/
def toUri (wd : GoStr) (p : GoStr) : GoStr :=
  gs "file://" ++ escapePath (goAbs wd p)

/-- Scheme scanning of `net/url` `getScheme`: `none` models the parse error
for a colon before any scheme character; otherwise whether a scheme was found
together with the text after it (the whole original input when there is no
scheme). `orig` is the full input, `started` records that at least one scheme
character has been consumed. -/
def schemeScan (orig : GoStr) : GoStr → Bool → Option (Bool × GoStr)
  | [], _ => some (false, orig)
  | c :: r, started =>
    if ('a' ≤ c && c ≤ 'z') || ('A' ≤ c && c ≤ 'Z') then schemeScan orig r true
    else if isDigitCh c || c = '+' || c = '-' || c = '.' then
      (if started then schemeScan orig r true else some (false, orig))
    else if c = ':' then (if started then some (true, r) else none)
    else some (false, orig)

/-- Path extraction of `net/url` `Parse` for the URI shapes exchanged with the
language server: the fragment and query are split off, the scheme is removed,
a rootless remainder with a scheme is opaque (empty path), an authority
component is skipped, and the remaining path is percent-decoded. Host syntax
validation inside `parseAuthority` is not modelled (the URIs produced here
always carry an empty authority). `none` models a parse error, upon which
`FromUri` returns its input unchanged. -/
def urlParsePath (s : GoStr) : Option GoStr :=
  let noFrag := s.takeWhile (fun c => c ≠ '#')
  match schemeScan noFrag noFrag false with
  | none => none
  | some (hasScheme, rest0) =>
    let rest := rest0.takeWhile (fun c => c ≠ '?')
    if hasScheme && !((gs "/").isPrefixOf rest) then some []
    else if !hasScheme && !((gs "/").isPrefixOf rest)
        && (rest.takeWhile (fun c => c ≠ '/')).contains ':' then none
    else if (hasScheme || !((gs "///").isPrefixOf rest)) && (gs "//").isPrefixOf rest then
      unescapePath ((rest.drop 2).dropWhile (fun c => c ≠ '/'))
    else unescapePath rest

/-- Embedding of `FromUri` (internal/lsp/uri.go) on Linux: parse the URI and
return its decoded path; on a parse error return the input unchanged
(`filepath.FromSlash` is the identity on Unix). -/
def fromUri (s : GoStr) : GoStr :=
  match urlParsePath s with
  | some path => path
  | none => s

/-- Embedding of `model.ChainStep` (internal/model/types.go). -/
structure ChainStep where
  file : GoStr
  line : Nat
  func : GoStr
  code : GoStr
  analysis : List GoStr
deriving DecidableEq, Repr

/-- Embedding of `lsp.Location` restricted to the fields the tracer reads:
the URI and the start line of the range. -/
structure Loc where
  uri : GoStr
  line : Nat
deriving DecidableEq, Repr

mutual
/-- Embedding of `lsp.DocumentSymbol` restricted to the fields the tracer
reads: name, kind, full-range start and end lines, and selection-range start
(line and character). Children use the mutually defined `DocSymList`
(isomorphic to `List DocSym`) so that the symbol walk is structurally
recursive. -/
inductive DocSym where
  | node (name : GoStr) (kind : Nat) (rangeStartLine rangeEndLine : Nat)
      (selStartLine selStartChar : Nat) (children : DocSymList)
/-- Lists of `DocSym`. -/
inductive DocSymList where
  | nil
  | cons (s : DocSym) (rest : DocSymList)
end

/-- Deterministic environment for the tracer: file contents (`none` models an
unreadable file), replies to `textDocument/references` keyed by URI, position,
and attempt number (`none` models a timeout, an error reply, or an unparsable
result), and replies to `textDocument/documentSymbol` keyed by URI (`none`
models a failed wait). `wd` is the process working directory that
`filepath.Abs` resolves against. -/
structure TraceEnv where
  wd : GoStr
  fileLines : GoStr → Option (List GoStr)
  references : GoStr → Nat → Nat → Nat → Option (List Loc)
  docSymbols : GoStr → Option DocSymList

/-- The `walk` closure of `GetEnclosingFunction` (tracer): depth-first,
left-to-right; every symbol of kind 6 or 12 whose full range contains `line`
overwrites the accumulator, and children of any containing node are visited
afterwards, so the last (deepest, rightmost) such symbol wins. The accumulator
is (name, selection start line, range end line, selection start column),
initially `("", 0, 0, 0)`. -/
def walkSymList (line : Nat) (acc : GoStr × Nat × Nat × Nat) :
    DocSymList → GoStr × Nat × Nat × Nat
  | .nil => acc
  | .cons (.node n k rs re sl sc ch) rest =>
    let acc1 :=
      if rs ≤ line && line ≤ re then
        walkSymList line (if k = 6 || k = 12 then (n, sl, re, sc) else acc) ch
      else acc
    walkSymList line acc1 rest

/-- Mutable state of the Go `Tracer` relevant to the claims: symbol cache,
visited set, result store, and the strict flag. The Go visited map is keyed by
the string `path:line`; since the line part is decimal digits, that key
determines the `(path, line)` pair, so the key is modelled as the pair itself.
The write-only `ReportedEntry` field is omitted. -/
structure TracerState where
  symbolCache : List (GoStr × DocSymList)
  visited : List (GoStr × Nat)
  results : List (List ChainStep)
  strictMode : Bool

/-- Embedding of `GetEnclosingFunction` (tracer): look the symbol tree up in
the cache under the normalized decoded path; on a miss issue the request — a
failed wait returns zeros without caching, a successful one caches the reply
and walks it. Returns (name, definition line, end line, column) and the
updated state. -/
def getEnclosingFunction (env : TraceEnv) (st : TracerState) (uri : GoStr)
    (line : Nat) : (GoStr × Nat × Nat × Nat) × TracerState :=
  let normPath := normalizePath env.wd (fromUri uri)
  match st.symbolCache.find? (fun kv => kv.1 = normPath) with
  | some kv => (walkSymList line (gs "", 0, 0, 0) kv.2, st)
  | none =>
    match env.docSymbols uri with
    | none => ((gs "", 0, 0, 0), st)
    | some syms =>
      (walkSymList line (gs "", 0, 0, 0) syms,
       { st with symbolCache := st.symbolCache ++ [(normPath, syms)] })

/-- The closed list of framework-entry substrings of `isFrameworkEntry`
(tracer), in source order: thirteen entry markers and three supertype
phrases. -/
def entryMarkers : List GoStr :=
  [gs "@RequestMapping", gs "@GetMapping", gs "@PostMapping", gs "@PutMapping",
   gs "@DeleteMapping", gs "@PatchMapping", gs "@Controller", gs "@RestController",
   gs "@WebFilter", gs "@WebServlet",
   gs "implements Filter", gs "extends HttpServlet", gs "extends GenericServlet",
   gs "@RabbitListener", gs "@KafkaListener", gs "@JmsListener"]

/-- Comment skip of `isFrameworkEntry`: only `//` and `*` prefixes (unlike the
scanner, `/*` is not among them). -/
def entrySkipsLine (text : GoStr) : Bool :=
  (gs "//").isPrefixOf text || (gs "*").isPrefixOf text

/-- Line scan of `isFrameworkEntry` over the file's lines `0 .. line`. -/
def entryScan (ls : List GoStr) (line : Nat) : Bool :=
  (ls.take (line + 1)).any fun l =>
    let t := trimSpace l
    !entrySkipsLine t && entryMarkers.any (fun m => containsSub m t)

/-- Embedding of `isFrameworkEntry` (tracer): an unreadable file is no entry;
otherwise scan the lines up to and including `line`, skipping comment lines,
for any of the sixteen markers. -/
def isFrameworkEntry (env : TraceEnv) (file : GoStr) (line : Nat) : Bool :=
  match env.fileLines file with
  | none => false
  | some ls => entryScan ls line

/-- Word characters mapped over an optional character: the boundary assertion
treats the ends of the string as non-word. -/
def optWord : Option Char → Bool
  | none => false
  | some c => isWordCh c

/-- Word-boundary test between two adjacent optional characters (the Go regexp
boundary assertion holds where exactly one side is a word character). -/
def wordBoundary (a b : Option Char) : Bool := optWord a != optWord b

/-- Matcher for the assignment regexp of `findDefinition` (a word boundary,
the quoted variable name, optional whitespace, then `=`): scan every position,
`prev` being the character before the current position. -/
def hasAssignMatchFrom (varName : GoStr) (prev : Option Char) : GoStr → Bool
  | [] => false
  | c :: r =>
    (wordBoundary prev (some c) && varName.isPrefixOf (c :: r) &&
      (match ((c :: r).drop varName.length).dropWhile isRegexSpace with
       | '=' :: _ => true
       | _ => false))
    || hasAssignMatchFrom varName (some c) r

/-- Does the assignment regexp of `findDefinition` match anywhere in `text`? -/
def hasAssignMatch (varName : GoStr) (text : GoStr) : Bool :=
  hasAssignMatchFrom varName none text

/-- Embedding of `findDefinition` (internal/analysis utils): search the 50
lines above `currentLine`, nearest first, skipping comment lines, for the
first trimmed line matching the assignment pattern for `varName`. -/
def findDefinition (ls : List GoStr) (currentLine : Nat) (varName : GoStr) :
    Option GoStr :=
  let lo := currentLine - 50
  ((List.range' lo (currentLine - lo)).reverse.filterMap fun i =>
    let text := trimSpace (ls.getD i [])
    if scannerSkipsLine text then none
    else if hasAssignMatch varName text then some text else none).head?

/-- Matcher for a whole-word regexp occurrence of `varName` (word boundaries
on both sides), scanning every position. -/
def hasWordMatchFrom (varName : GoStr) (prev : Option Char) : GoStr → Bool
  | [] => false
  | c :: r =>
    (wordBoundary prev (some c) && varName.isPrefixOf (c :: r) &&
      wordBoundary (if varName.isEmpty then prev else varName.getLast?)
        (((c :: r).drop varName.length).head?))
    || hasWordMatchFrom varName (some c) r

/-- Worker for `isMethodParameter`: indices are visited in decreasing order;
the first line containing the function name and `(` and not ending in `;`
decides by a whole-word search for `varName`. -/
def methodParamScan (ls : List GoStr) (startFuncName varName : GoStr) :
    List Nat → Bool
  | [] => false
  | i :: rest =>
    let line := trimSpace (ls.getD i [])
    if containsSub startFuncName line && containsSub (gs "(") line then
      (if (gs ";").isSuffixOf line then methodParamScan ls startFuncName varName rest
       else hasWordMatchFrom varName none line)
    else methodParamScan ls startFuncName varName rest

/-- Embedding of `isMethodParameter` (internal/analysis utils): walk upward
from `currentLine` (the loop breaks after checking a line 101
below the start, so at most 102 lines are checked). -/
def isMethodParameter (ls : List GoStr) (currentLine : Nat)
    (startFuncName varName : GoStr) : Bool :=
  let lo := currentLine - 101
  methodParamScan ls startFuncName varName
    ((List.range' lo (currentLine + 1 - lo)).reverse)

/-- Embedding of `AnalysisResult` (internal/analysis utils). -/
structure AnalysisResult where
  code : GoStr
  dataFlow : List GoStr
deriving DecidableEq, Repr

/-- Embedding of `AnalyzeCallSite` (internal/analysis utils): read the file,
trim the call line, and when the argument text is neither empty nor a strict
constant attach one data-flow note - from the nearest local assignment when
one matches, otherwise from the method-parameter heuristic. -/
def analyzeCallSite (env : TraceEnv) (path : GoStr) (line : Nat)
    (targetFunc : GoStr) : AnalysisResult :=
  match env.fileLines path with
  | none => ⟨[], []⟩
  | some ls =>
    if ls.length ≤ line then ⟨[], []⟩
    else
      let code := trimSpace (ls.getD line [])
      let args := extractArgs code
      let flows :=
        if !args.isEmpty && !isStrictConstant args then
          match findDefinition ls line args with
          | some defLine =>
            let defValue := extractRHS defLine
            if isStrictConstant defValue then
              [gs "🟢 Defined as Constant: `" ++ trimSpace defValue ++ gs "`"]
            else
              [gs "⚠️ Variable Definition: `" ++ trimSpace defValue ++ gs "`"]
          | none =>
            let funcNameSimple :=
              match idxOfChar '(' targetFunc with
              | some i => targetFunc.take i
              | none => targetFunc
            if isMethodParameter ls line funcNameSimple args then
              [gs "⚠️ Variable Definition: Method Parameter `" ++ args ++ gs "`"]
            else []
        else []
      ⟨code, flows⟩

/-- The implicit-input substrings of `checkSourceValidity` (tracer). -/
def implicitKeywords : List GoStr :=
  [gs "RequestContextHolder", gs "ServletRequestAttributes", gs "HttpServletRequest",
   gs "SecurityContextHolder", gs "request.getParameter", gs "request.getHeader",
   gs "request.getCookie", gs "MultipartHttpServletRequest"]

/-- Signature accumulation of `checkSourceValidity`: concatenate the collected
lines, each followed by a space, up to and including the first line containing
`{`; also return that line's index (0 when no line contains `{`, matching the
Go variable that is never assigned then). -/
def sigScan : List GoStr → Nat → GoStr × Nat
  | [], _ => ([], 0)
  | l :: rest, i =>
    if l.contains '{' then (l ++ [' '], i)
    else
      let p := sigScan rest (i + 1)
      (l ++ [' '] ++ p.1, p.2)

/-- Embedding of `checkSourceValidity` (tracer): fail open on an unreadable
file; keep the chain when the signature between its first `(` and last `)` is
non-blank, or when the body from the brace line onward contains an
implicit-input keyword. -/
def checkSourceValidity (env : TraceEnv) (file : GoStr)
    (startLine endLine : Nat) : Bool :=
  match env.fileLines file with
  | none => true
  | some allLines =>
    let ls := (allLines.drop startLine).take (endLine + 1 - startLine)
    let sp := sigScan ls 0
    let signature := sp.1
    let bodyStart := sp.2
    let hasParams :=
      match idxOfChar '(' signature, lastIdxOfChar ')' signature with
      | some s, some e =>
        if s < e then !(trimSpace ((signature.drop (s + 1)).take (e - s - 1))).isEmpty
        else false
      | _, _ => false
    if hasParams then true
    else
      let fullBody := List.intercalate (gs "\n") (ls.drop bodyStart)
      implicitKeywords.any (fun kw => containsSub kw fullBody)

/-- Embedding of `RecordResult` (tracer), without the console printing: in
strict mode a non-empty chain must end at a framework entry, and when an
enclosing function resolves for that last step its body must pass
`checkSourceValidity`; otherwise the chain is dropped (state returned
unchanged apart from the symbol cache the lookup may have filled). A surviving
chain is appended to the result store; Go appends a fresh copy of the stack
slice, which in this value model is the appended value itself. -/
def recordResult (env : TraceEnv) (st : TracerState)
    (stack : List ChainStep) : TracerState :=
  if st.strictMode && !stack.isEmpty then
    let sourceStep := stack.getLastD ⟨[], 0, [], [], []⟩
    if !isFrameworkEntry env sourceStep.file sourceStep.line then st
    else
      let r := getEnclosingFunction env st (toUri env.wd sourceStep.file) sourceStep.line
      let funcName := r.1.1
      let startLine := r.1.2.1
      let endLine := r.1.2.2.1
      let st2 := r.2
      if !funcName.isEmpty && !checkSourceValidity env sourceStep.file startLine endLine then st2
      else { st2 with results := st2.results ++ [stack] }
  else { st with results := st.results ++ [stack] }

/-- Absolute difference of two line numbers (`abs(refLine - line)`; LSP line
numbers are non-negative). -/
def natDist (a b : Nat) : Nat := max a b - min a b

/-- Reference filter of `TraceChain` (tracer): drop a reference in the same
normalized file within one line of the current position, keep it when the
decoded path has the `.java` extension. -/
def validFilter (env : TraceEnv) (file : GoStr) (line : Nat)
    (refs : List Loc) : List Loc :=
  refs.filter fun ref =>
    let path := fromUri ref.uri
    if normalizePath env.wd path = normalizePath env.wd file ∧ natDist ref.line line ≤ 1 then
      false
    else decide (goExt path = gs ".java")

/-- One attempt of the reference request in `TraceChain`: a timeout, an error
reply, or an unparsable result leaves the decoded list empty (the failed
`json.Unmarshal` leaves `refs` nil), and the filter runs on what was decoded. -/
def attemptRefs (env : TraceEnv) (file : GoStr) (line col attempt : Nat) : List Loc :=
  validFilter env file line ((env.references (toUri env.wd file) line col attempt).getD [])

/-- The retry loop of `TraceChain`: up to three attempts, stopping at the
first non-empty valid set; after three failures the last (empty) attempt's
set is returned. -/
def refsLoop (env : TraceEnv) (file : GoStr) (line col : Nat) : List Loc :=
  let v1 := attemptRefs env file line col 1
  if !v1.isEmpty then v1
  else
    let v2 := attemptRefs env file line col 2
    if !v2.isEmpty then v2
    else attemptRefs env file line col 3

/-- Embedding of `TraceChain` (tracer), with an explicit fuel bound on the
recursion depth (the Go recursion carries no such bound; the claims below hold
for every fuel value and concrete runs use enough fuel). Fuel 0 returns the
state unchanged. At a framework entry, or when no valid reference remains
after the retries, the stack is handed to `recordResult`; otherwise each valid
reference not yet visited is marked visited, its enclosing function and call
site are resolved, and the traversal recurses (or records, when no function
line resolves) with the extended stack. -/
def traceChain (env : TraceEnv) :
    Nat → GoStr → Nat → Nat → List ChainStep → TracerState → TracerState
  | 0, _, _, _, _, st => st
  | fuel + 1, file, line, col, stack, st =>
    if isFrameworkEntry env file line then recordResult env st stack
    else
      let validRefs := refsLoop env file line col
      if validRefs.isEmpty then recordResult env st stack
      else
        validRefs.foldl
          (fun st1 ref =>
            let callerPath := fromUri ref.uri
            let callerLine := ref.line
            if (callerPath, callerLine) ∈ st1.visited then st1
            else
              let st2 := { st1 with visited := st1.visited ++ [(callerPath, callerLine)] }
              let r := getEnclosingFunction env st2 ref.uri callerLine
              let funcName0 := r.1.1
              let funcLine := r.1.2.1
              let funcCol := r.1.2.2.2
              let st3 := r.2
              let funcName := if funcName0.isEmpty then gs "Global/Anonymous" else funcName0
              let ad := analyzeCallSite env callerPath callerLine funcName
              let newStep : ChainStep := ⟨callerPath, callerLine, funcName, ad.code, ad.dataFlow⟩
              if 0 < funcLine then
                traceChain env fuel callerPath funcLine funcCol (stack ++ [newStep]) st3
              else recordResult env st3 (stack ++ [newStep]))
          st

/-- State of the LSP client (internal/lsp/client.go) relevant to request-id
allocation: the last allocated id (`msgId`) and the frames written so far
(id and method; body serialization is not modelled). All of `SendRequest`
runs under the client mutex, so it is modelled as one atomic state step. -/
structure ClientState where
  msgId : Nat
  written : List (Nat × GoStr)
deriving DecidableEq, Repr

/-- Embedding of `SendRequest` (client.go): under the mutex, increment the id
counter and write the frame carrying that id; the new id is returned. No
response slot or pending-response registry of any kind is touched — the
client has none. -/
def sendRequest (st : ClientState) (method : GoStr) : Nat × ClientState :=
  let id := st.msgId + 1
  (id, { msgId := id, written := st.written ++ [(id, method)] })

/-- One decoded JSON-RPC message from the child's stdout, with framing and
JSON decoding abstracted: an optional integer id (notifications have none),
whether the reply carries an error object, and the raw result payload. -/
structure RpcMsg where
  id : Option Nat
  isError : Bool
  result : GoStr
deriving DecidableEq, Repr

/-- Outcome of `WaitForResult`: a result, the server-error return, or the
deadline return. -/
inductive WaitOutcome where
  | ok (res : GoStr)
  | errServer
  | errTimeout
deriving DecidableEq, Repr

/-- Embedding of `WaitForResult` (client.go) over the stream of frames the
child will deliver before the deadline: frames are read and decoded one at a
time directly from stdout; any frame whose id differs from the target —
including responses to other pending requests — is read and dropped; the
first frame carrying the target id resolves the call as an error or a result.
Reaching the end of the available stream models the deadline. Returns the
outcome and the unread remainder of the stream. -/
def waitForResult (target : Nat) : List RpcMsg → WaitOutcome × List RpcMsg
  | [] => (.errTimeout, [])
  | m :: rest =>
    if m.id = some target then
      (if m.isError then (.errServer, rest) else (.ok m.result, rest))
    else waitForResult target rest

/-- A Go slice header: backing-array id, start offset, and length. Used to
model the aliasing behaviour of `RecordResult`'s copy. -/
structure SliceRef where
  arr : Nat
  off : Nat
  len : Nat
deriving DecidableEq, Repr

/-- A `ChainStep` struct value as stored in memory: the `Analysis` field is a
slice header pointing into the string-array heap (strings themselves are
immutable in Go). -/
structure StepVal where
  file : GoStr
  line : Nat
  func : GoStr
  code : GoStr
  analysis : SliceRef
deriving DecidableEq, Repr

/-- The two heaps of the aliasing model: backing arrays of `ChainStep` values
(the workers' stack slices) and backing arrays of strings (the `Analysis`
slices). -/
structure SliceHeap where
  stepArrays : List (List StepVal)
  strArrays : List (List GoStr)
deriving Repr

/-- Read the visible elements of a slice out of its heap. -/
def readSlice {α : Type} (arrays : List (List α)) (r : SliceRef) : List α :=
  ((arrays.getD r.arr []).drop r.off).take r.len

/-- The `make` + `copy` in `RecordResult`: the stored chain is the list of
`ChainStep` struct values read out of the worker's stack slice at insertion
time (the fresh backing array the Go code allocates is represented by this
value list). Each copied struct still holds the same `analysis` slice header
— the copy is one level deep. -/
def recordCopy (h : SliceHeap) (stack : SliceRef) : List StepVal :=
  readSlice h.stepArrays stack

/-- Resolve a stored chain against the heap: each step's analysis notes are
read through its slice header out of the current string arrays. -/
def resolveChain (h : SliceHeap) (steps : List StepVal) : List ChainStep :=
  steps.map fun s => ⟨s.file, s.line, s.func, s.code, readSlice h.strArrays s.analysis⟩

/-- Go `stack[i] = v` through the worker's stack slice. -/
def setStackElem (h : SliceHeap) (stack : SliceRef) (i : Nat) (v : StepVal) : SliceHeap :=
  let updated := (h.stepArrays.getD stack.arr []).set (stack.off + i) v
  { h with stepArrays := h.stepArrays.set stack.arr updated }

/-- Go `append(stack, v)` on the worker's stack slice: write one slot past the
current length when the backing array still has capacity, reallocate
otherwise. -/
def appendStack (h : SliceHeap) (stack : SliceRef) (v : StepVal) : SliceHeap × SliceRef :=
  let arrLen := (h.stepArrays.getD stack.arr []).length
  if stack.off + stack.len < arrLen then
    let updated := (h.stepArrays.getD stack.arr []).set (stack.off + stack.len) v
    ({ h with stepArrays := h.stepArrays.set stack.arr updated },
     { stack with len := stack.len + 1 })
  else
    ({ h with stepArrays := h.stepArrays ++ [readSlice h.stepArrays stack ++ [v]] },
     ⟨h.stepArrays.length, 0, stack.len + 1⟩)

/-- Go `step.Analysis[j] = s`: overwrite an element through an analysis slice
header that the stored copy still shares. -/
def setAnalysisElem (h : SliceHeap) (aref : SliceRef) (j : Nat) (s : GoStr) : SliceHeap :=
  let updated := (h.strArrays.getD aref.arr []).set (aref.off + j) s
  { h with strArrays := h.strArrays.set aref.arr updated }

/-- Go `append(step.Analysis, s)` through an analysis slice header: in place
one slot past the visible length when there is capacity, reallocating
otherwise. -/
def appendAnalysis (h : SliceHeap) (aref : SliceRef) (s : GoStr) : SliceHeap × SliceRef :=
  let arrLen := (h.strArrays.getD aref.arr []).length
  if aref.off + aref.len < arrLen then
    let updated := (h.strArrays.getD aref.arr []).set (aref.off + aref.len) s
    ({ h with strArrays := h.strArrays.set aref.arr updated },
     { aref with len := aref.len + 1 })
  else
    ({ h with strArrays := h.strArrays ++ [readSlice h.strArrays aref ++ [s]] },
     ⟨h.strArrays.length, 0, aref.len + 1⟩)

/-! ## Helper lemmas -/

/-- `containsSub` decides the infix relation. -/
theorem containsSub_decides_substring (n h : GoStr) : containsSub n h = true ↔ n <:+: h := by
  induction h with
  | nil => simp [containsSub, List.isEmpty_iff, List.infix_nil]
  | cons c r ih =>
    simp [containsSub, List.isPrefixOf_iff_prefix, ih, List.infix_cons_iff]

/-- An infix whose first element fails `p` survives `dropWhile p`. -/
theorem infix_dropWhile_iff {p : Char → Bool} {m : GoStr} (l : GoStr)
    (hm : m ≠ []) (hhead : m.head?.all (fun c => !p c) = true) :
    m <:+: l.dropWhile p ↔ m <:+: l := by
  induction l with
  | nil => simp
  | cons a l ih =>
    rw [List.dropWhile_cons]
    by_cases hpa : p a
    · rw [if_pos hpa, ih]
      constructor
      · exact List.infix_cons
      · intro h
        rcases List.infix_cons_iff.mp h with hpre | hinf
        · obtain ⟨c, m', rfl⟩ : ∃ c m', m = c :: m' := by
            cases m with
            | nil => exact absurd rfl hm
            | cons c m' => exact ⟨c, m', rfl⟩
          have hca : c = a := (List.cons_prefix_cons.mp hpre).1
          simp only [List.head?_cons, Option.all_some, Bool.not_eq_eq_eq_not,
            Bool.not_true] at hhead
          rw [hca] at hhead
          rw [hhead] at hpa
          exact absurd hpa (by simp)
        · exact hinf
    · rw [if_neg hpa]

/-- An infix whose first and last elements fail `isGoSpace` survives
`trimSpace`. -/
theorem infix_trim_iff {m : GoStr} (l : GoStr) (hm : m ≠ [])
    (hhead : m.head?.all (fun c => !isGoSpace c) = true)
    (hlast : m.getLast?.all (fun c => !isGoSpace c) = true) :
    m <:+: trimSpace l ↔ m <:+: l := by
  unfold trimSpace
  have hrev : ∀ x : GoStr, m <:+: x.reverse ↔ m.reverse <:+: x := by
    intro x
    constructor
    · intro h
      have := List.reverse_infix.mpr h
      simpa using this
    · intro h
      have := List.reverse_infix.mpr h
      simpa using this
  rw [hrev, infix_dropWhile_iff _ (by simpa using hm)
        (by rw [List.head?_reverse]; exact hlast)]
  rw [← hrev, List.reverse_reverse]
  exact infix_dropWhile_iff _ hm hhead

/-! ## C2: characterization of the strict-constant classifier -/

/-- C2. `isStrictConstant` returns true exactly as the specification describes
it: after trimming, the expression is empty, or a number / `true` / `false` /
`null` literal, or ends with `.class`, or contains a double quote and reduces
to nothing after deleting quoted regions and stripping `+` and spaces; in
particular a non-empty expression without a double quote that matches none of
the literal forms is classified as not constant. -/
theorem c2_isStrictConstant_characterization (s : GoStr) :
    isStrictConstant s = strictConstantSpec s := by
  rw [Bool.eq_iff_iff]
  unfold isStrictConstant strictConstantSpec
  dsimp only
  split_ifs with h1 h2 h3 h4 h5
  · simp_all
  · simp_all
  · simp_all
  · simp_all
  · obtain ⟨x, hx⟩ := List.exists_mem_of_length_pos h5
    rw [List.mem_filter, List.mem_filter] at hx
    simp only [Bool.not_eq_eq_eq_not, Bool.not_true, decide_eq_false_iff_not] at hx
    simp_all
    exact ⟨x, hx.1.1, hx.2, hx.1.2⟩
  · simp_all
    exact h5

/-! ## C1: the chained `Runtime.getRuntime().exec("ls")` candidate -/

/-- C1 counterexample. Scanning a file whose single line is
`Runtime.getRuntime().exec("ls");` with the built-in RCE rule for
`java.lang.Runtime.exec` (`skip_safe = true`) does NOT discard the hit: one
candidate is emitted at column 20, because the argument text extracted
between the first `(` and the last `)` is `).exec("ls"`, which is not a
strict constant. -/
theorem c1_chained_exec_candidate_emitted :
    findCandidatesInFile [rceRuntimeExec] (gs "/project/A.java")
        [gs "Runtime.getRuntime().exec(\"ls\");"] =
      [⟨gs "/project/A.java", 0, 20, gs "Runtime.getRuntime().exec(\"ls\");", rceRuntimeExec⟩]
      ∧ isStrictConstant (extractArgs (gs "Runtime.getRuntime().exec(\"ls\");")) = false := by
  decide

/-- C1 as amended. For every scanned source line whose trimmed text is
`Runtime.getRuntime().exec("ls");`, the scan against the built-in RCE rule for
`java.lang.Runtime.exec` emits exactly one candidate, at column 20 of the
trimmed line: the `skip_safe` discard does not fire because the extracted
argument list `).exec("ls"` is not a strict constant. -/
theorem c1_chained_exec_not_discarded (path : GoStr) (lineNum : Nat) (raw : GoStr)
    (h : trimSpace raw = gs "Runtime.getRuntime().exec(\"ls\");") :
    lineCandidates [rceRuntimeExec] path lineNum raw =
      [⟨path, lineNum, 20, gs "Runtime.getRuntime().exec(\"ls\");", rceRuntimeExec⟩] := by
  have h1 : scannerSkipsLine (gs "Runtime.getRuntime().exec(\"ls\");") = false := by decide
  have h2 : ruleMatchIdx rceRuntimeExec (gs "Runtime.getRuntime().exec(\"ls\");") = some 20 := by
    decide
  have h3 : (rceRuntimeExec.skipSafe &&
      isStrictConstant (extractArgs (gs "Runtime.getRuntime().exec(\"ls\");"))) = false := by
    decide
  unfold lineCandidates
  rw [h]
  dsimp only
  rw [h1]
  simp only [Bool.false_eq_true, if_false, List.filterMap_cons, h2, List.filterMap_nil]
  rw [if_neg (by simp_all)]

/-- Witness for the amended C1 theorem at a concrete indented line. -/
theorem c1_chained_exec_not_discarded_witness :
    trimSpace (gs "    Runtime.getRuntime().exec(\"ls\");") =
        gs "Runtime.getRuntime().exec(\"ls\");"
      ∧ lineCandidates [rceRuntimeExec] (gs "/project/A.java") 7
          (gs "    Runtime.getRuntime().exec(\"ls\");") =
        [⟨gs "/project/A.java", 7, 20, gs "Runtime.getRuntime().exec(\"ls\");", rceRuntimeExec⟩] :=
  ⟨by decide, c1_chained_exec_not_discarded (gs "/project/A.java") 7 _ (by decide)⟩

/-- The sixteen entry markers are non-empty and bounded by non-whitespace
characters, so their occurrence is unaffected by line trimming. -/
theorem entryMarkers_shape :
    entryMarkers.all (fun m => !m.isEmpty && m.head?.all (fun c => !isGoSpace c)
      && m.getLast?.all (fun c => !isGoSpace c)) = true := by decide

/-- An entry marker occurs in a trimmed line exactly when it occurs in the
raw line. -/
theorem marker_infix_trim (raw m : GoStr) (hmem : m ∈ entryMarkers) :
    m <:+: trimSpace raw ↔ m <:+: raw := by
  have h := List.all_eq_true.mp entryMarkers_shape m hmem
  simp only [Bool.and_eq_true, Bool.not_eq_eq_eq_not, Bool.not_true] at h
  refine infix_trim_iff raw ?_ h.1.2 h.2
  intro hnil
  rw [hnil] at h
  simp at h

/-- Index-level characterization of the entry-scan loop. -/
theorem entryScan_iff (ls : List GoStr) (line : Nat) :
    entryScan ls line = true ↔
      ∃ i, i ≤ line ∧ i < ls.length ∧
        entrySkipsLine (trimSpace (ls.getD i [])) = false ∧
        ∃ m ∈ entryMarkers, m <:+: ls.getD i [] := by
  unfold entryScan
  rw [List.any_eq_true]
  constructor
  · rintro ⟨x, hx, hpx⟩
    obtain ⟨i, hi, hxi⟩ := List.mem_take_iff_getElem.mp hx
    have hilen : i < ls.length := lt_of_lt_of_le hi (min_le_right _ _)
    have hile : i ≤ line := by
      have := lt_of_lt_of_le hi (min_le_left _ _)
      omega
    have hgd : ls.getD i [] = x := by
      rw [List.getD_eq_getElem ls [] hilen]; exact hxi
    simp only [Bool.and_eq_true, Bool.not_eq_eq_eq_not, Bool.not_true,
      List.any_eq_true] at hpx
    obtain ⟨hskip, m, hm, hcont⟩ := hpx
    refine ⟨i, hile, hilen, by rw [hgd]; exact hskip, m, hm, ?_⟩
    rw [hgd] at *
    exact (marker_infix_trim x m hm).mp ((containsSub_decides_substring m (trimSpace x)).mp hcont)
  · rintro ⟨i, hile, hilen, hskip, m, hm, hinf⟩
    refine ⟨ls.getD i [], ?_, ?_⟩
    · apply List.mem_take_iff_getElem.mpr
      refine ⟨i, lt_min (by omega) hilen, ?_⟩
      rw [List.getD_eq_getElem ls [] hilen]
    · simp only [Bool.and_eq_true, Bool.not_eq_eq_eq_not, Bool.not_true, List.any_eq_true]
      refine ⟨hskip, m, hm, ?_⟩
      exact (containsSub_decides_substring m _).mpr ((marker_infix_trim _ m hm).mpr hinf)

/-- C3. `isFrameworkEntry(file, line)` returns true iff some line of the
file with index between 0 and `line` inclusive that is not a comment line
(by the function's comment test: a `//` or `*` prefix of the trimmed line)
contains one of the sixteen framework-entry substrings; and whenever it
returns true, `TraceChain` hands the current stack to `RecordResult` as a
complete chain and returns without issuing any references request. -/
theorem c3_isFrameworkEntry_characterization (env : TraceEnv) (file : GoStr)
    (line : Nat) (ls : List GoStr) (hread : env.fileLines file = some ls) :
    (isFrameworkEntry env file line = true ↔
      ∃ i, i ≤ line ∧ i < ls.length ∧
        entrySkipsLine (trimSpace (ls.getD i [])) = false ∧
        ∃ m ∈ entryMarkers, m <:+: ls.getD i []) ∧
    (∀ (col : Nat) (stack : List ChainStep) (st : TracerState) (fuel : Nat),
      isFrameworkEntry env file line = true →
      traceChain env (fuel + 1) file line col stack st = recordResult env st stack) := by
  constructor
  · unfold isFrameworkEntry
    rw [hread]
    exact entryScan_iff ls line
  · intro col stack st fuel hentry
    simp only [traceChain]
    rw [if_pos hentry]

/-- Environment for the C3 witness: a two-line file with a
`@RestController` marker. -/
def c3wEnv : TraceEnv :=
  { wd := gs "/wd"
  , fileLines := fun p =>
      if p = gs "/W.java" then some [gs "@RestController", gs "void h()"] else none
  , references := fun _ _ _ _ => none
  , docSymbols := fun _ => none }

/-- Witness for C3 at a concrete file and line. -/
theorem c3_isFrameworkEntry_characterization_witness :
    isFrameworkEntry c3wEnv (gs "/W.java") 1 = true ∧
    traceChain c3wEnv 1 (gs "/W.java") 1 0 [] ⟨[], [], [], false⟩ =
      recordResult c3wEnv ⟨[], [], [], false⟩ [] :=
  ⟨by decide,
   (c3_isFrameworkEntry_characterization c3wEnv (gs "/W.java") 1
      [gs "@RestController", gs "void h()"] (by decide)).2 0 [] ⟨[], [], [], false⟩ 0 (by decide)⟩

/-- C4. For a non-empty chain whose last step's `(file, line)` fails the
framework-entry test, `RecordResult` in strict mode returns with the state
(and in particular the result store) unchanged — the chain is dropped
silently; with strict mode off, the same chain is appended to the result
store. A 1-step chain for a sink with no callers and no entry marker is the
witness instance. -/
theorem c4_strict_mode_source_gate (env : TraceEnv) (st : TracerState)
    (stack : List ChainStep) (sourceStep : ChainStep)
    (hne : stack ≠ []) (hlast : stack.getLast? = some sourceStep)
    (hentry : isFrameworkEntry env sourceStep.file sourceStep.line = false) :
    (st.strictMode = true → recordResult env st stack = st) ∧
    (st.strictMode = false →
      recordResult env st stack = { st with results := st.results ++ [stack] }) := by
  constructor
  · intro hs
    unfold recordResult
    rw [if_pos (by simp [hs, List.isEmpty_iff, hne])]
    dsimp only
    rw [List.getLastD_eq_getLast?, hlast]
    simp only [Option.getD_some]
    rw [if_pos (by simp [hentry])]
  · intro hs
    unfold recordResult
    rw [if_neg (by simp [hs])]

/-- Environment for the C4 witness: a one-line file with no entry marker. -/
def c4wEnv : TraceEnv :=
  { wd := gs "/wd"
  , fileLines := fun p => if p = gs "/A.java" then some [gs "int x;"] else none
  , references := fun _ _ _ _ => none
  , docSymbols := fun _ => none }

/-- The single step of the C4 witness chain. -/
def c4wStep : ChainStep := ⟨gs "/A.java", 0, gs "f", gs "Runtime.getRuntime().exec(cmd);", []⟩

/-- Witness for C4: the same 1-step chain is dropped in strict mode and
stored otherwise. -/
theorem c4_strict_mode_source_gate_witness :
    recordResult c4wEnv ⟨[], [], [], true⟩ [c4wStep] = ⟨[], [], [], true⟩ ∧
    recordResult c4wEnv ⟨[], [], [], false⟩ [c4wStep] = ⟨[], [], [[c4wStep]], false⟩ :=
  ⟨(c4_strict_mode_source_gate c4wEnv ⟨[], [], [], true⟩ [c4wStep] c4wStep
      (by decide) (by decide) (by decide)).1 rfl,
   (c4_strict_mode_source_gate c4wEnv ⟨[], [], [], false⟩ [c4wStep] c4wStep
      (by decide) (by decide) (by decide)).2 rfl⟩

/-- C6. A reference returned by the references request is kept as valid iff
its decoded path has the `.java` extension and it is not in the same
normalized file within one line of the current position; all other returned
references are filtered out. -/
theorem c6_reference_validity_filter (env : TraceEnv) (file : GoStr) (line : Nat)
    (refs : List Loc) (ref : Loc) :
    ref ∈ validFilter env file line refs ↔
      ref ∈ refs ∧ goExt (fromUri ref.uri) = gs ".java" ∧
        ¬(normalizePath env.wd (fromUri ref.uri) = normalizePath env.wd file ∧
          natDist ref.line line ≤ 1) := by
  unfold validFilter
  rw [List.mem_filter]
  dsimp only
  constructor
  · rintro ⟨hmem, hp⟩
    by_cases hcond : normalizePath env.wd (fromUri ref.uri) = normalizePath env.wd file ∧
        natDist ref.line line ≤ 1
    · rw [if_pos hcond] at hp
      simp at hp
    · rw [if_neg hcond] at hp
      simp only [decide_eq_true_eq] at hp
      exact ⟨hmem, hp, hcond⟩
  · rintro ⟨hmem, hext, hncond⟩
    refine ⟨hmem, ?_⟩
    rw [if_neg hncond]
    simpa using hext

/-- C7. When every one of the three reference attempts times out or yields
an empty or invalid set (an empty valid-reference list after filtering), the
traversal does not fail: `TraceChain` hands the current stack to
`RecordResult` as a complete chain and returns. -/
theorem c7_reference_exhaustion_records_chain (env : TraceEnv) (file : GoStr)
    (line col : Nat) (stack : List ChainStep) (st : TracerState) (fuel : Nat)
    (h1 : attemptRefs env file line col 1 = [])
    (h2 : attemptRefs env file line col 2 = [])
    (h3 : attemptRefs env file line col 3 = []) :
    traceChain env (fuel + 1) file line col stack st = recordResult env st stack := by
  have hloop : refsLoop env file line col = [] := by
    unfold refsLoop
    rw [h1, h2, h3]
    simp
  simp only [traceChain]
  split_ifs with hentry hempty
  · rfl
  · rfl
  · rw [hloop] at hempty
    simp at hempty

/-- Environment for the C7 witness: every references request times out. -/
def c7wEnv : TraceEnv :=
  { wd := gs "/wd"
  , fileLines := fun p => if p = gs "/A.java" then some [gs "void f()", gs "f(1);"] else none
  , references := fun _ _ _ _ => none
  , docSymbols := fun _ => none }

/-- Stack of the C7 witness run. -/
def c7wStack : List ChainStep := [⟨gs "/A.java", 1, gs "f", gs "f(1);", []⟩]

/-- Witness for C7 at a concrete environment whose requests all time out. -/
theorem c7_reference_exhaustion_records_chain_witness :
    attemptRefs c7wEnv (gs "/A.java") 0 0 1 = [] ∧
    traceChain c7wEnv 1 (gs "/A.java") 0 0 c7wStack ⟨[], [], [], false⟩ =
      recordResult c7wEnv ⟨[], [], [], false⟩ c7wStack :=
  ⟨by decide,
   c7_reference_exhaustion_records_chain c7wEnv (gs "/A.java") 0 0 c7wStack
     ⟨[], [], [], false⟩ 0 (by decide) (by decide) (by decide)⟩

/-! ## C5: visited-set guard and duplicate steps in recorded chains -/

/-- The `(file, line)` pair of a chain step — the data of the Go visited-map
key `path:line`. -/
def stepKey (s : ChainStep) : GoStr × Nat := (s.file, s.line)

/-- A recorded chain extends the initial `stack` by steps whose keys are
pairwise distinct and none of which was in the visited set `vis`. -/
def ExtOK (vis : List (GoStr × Nat)) (stack c : List ChainStep) : Prop :=
  ∃ ext, c = stack ++ ext ∧ (ext.map stepKey).Nodup ∧ ∀ s ∈ ext, stepKey s ∉ vis

/-- `ExtOK` is antitone in the visited set. -/
theorem extOK_mono {vis vis' : List (GoStr × Nat)} {stack c : List ChainStep}
    (hsub : vis ⊆ vis') (h : ExtOK vis' stack c) : ExtOK vis stack c := by
  obtain ⟨ext, hc, hnd, hnv⟩ := h
  exact ⟨ext, hc, hnd, fun s hs hv => hnv s hs (hsub hv)⟩

/-- `GetEnclosingFunction` only touches the symbol cache. -/
theorem getEnclosingFunction_state (env : TraceEnv) (st : TracerState)
    (uri : GoStr) (line : Nat) :
    ((getEnclosingFunction env st uri line).2.visited = st.visited) ∧
    ((getEnclosingFunction env st uri line).2.results = st.results) := by
  unfold getEnclosingFunction
  dsimp only
  split
  · exact ⟨rfl, rfl⟩
  · split
    · exact ⟨rfl, rfl⟩
    · exact ⟨rfl, rfl⟩

/-- `RecordResult` leaves the visited set alone and appends at most the handed
stack to the result store. -/
theorem recordResult_state (env : TraceEnv) (st : TracerState) (stack : List ChainStep) :
    (recordResult env st stack).visited = st.visited ∧
    ∃ app, (recordResult env st stack).results = st.results ++ app ∧
      ∀ c ∈ app, c = stack := by
  unfold recordResult
  dsimp only
  split_ifs with h1 h2 h3
  · exact ⟨rfl, [], by simp, by simp⟩
  · obtain ⟨hgv, hgr⟩ := getEnclosingFunction_state env st
      (toUri env.wd (stack.getLastD ⟨[], 0, [], [], []⟩).file)
      (stack.getLastD ⟨[], 0, [], [], []⟩).line
    exact ⟨hgv, [], by rw [List.append_nil]; exact hgr, by simp⟩
  · obtain ⟨hgv, hgr⟩ := getEnclosingFunction_state env st
      (toUri env.wd (stack.getLastD ⟨[], 0, [], [], []⟩).file)
      (stack.getLastD ⟨[], 0, [], [], []⟩).line
    exact ⟨hgv, [stack], by dsimp only; rw [hgr], by simp⟩
  · exact ⟨rfl, [stack], by simp, by simp⟩

/-- `recordResult_state`, phrased as the traversal invariant. -/
theorem recordResult_extension (env : TraceEnv) (st : TracerState) (stack : List ChainStep) :
    st.visited <+: (recordResult env st stack).visited ∧
    ∃ new, (recordResult env st stack).results = st.results ++ new ∧
      ∀ c ∈ new, ExtOK st.visited stack c := by
  obtain ⟨hv, app, hr, happ⟩ := recordResult_state env st stack
  refine ⟨by rw [hv], app, hr, ?_⟩
  intro c hc
  rw [happ c hc]
  exact ⟨[], by simp, by simp, by simp⟩

/-- The traversal invariant composes over the reference loop. -/
theorem foldl_extension (stack : List ChainStep) (f : TracerState → Loc → TracerState)
    (hf : ∀ st1 ref, st1.visited <+: (f st1 ref).visited ∧
      ∃ new, (f st1 ref).results = st1.results ++ new ∧ ∀ c ∈ new, ExtOK st1.visited stack c) :
    ∀ (refs : List Loc) (st : TracerState),
      st.visited <+: (refs.foldl f st).visited ∧
      ∃ new, (refs.foldl f st).results = st.results ++ new ∧
        ∀ c ∈ new, ExtOK st.visited stack c := by
  intro refs
  induction refs with
  | nil =>
    intro st
    exact ⟨List.prefix_refl _, [], by simp, by simp⟩
  | cons r rs ih =>
    intro st
    obtain ⟨h1, new1, h2, h3⟩ := hf st r
    obtain ⟨h4, new2, h5, h6⟩ := ih (f st r)
    rw [List.foldl_cons]
    refine ⟨h1.trans h4, new1 ++ new2, ?_, ?_⟩
    · rw [h5, h2, List.append_assoc]
    · intro c hc
      rcases List.mem_append.mp hc with h | h
      · exact h3 c h
      · exact extOK_mono h1.subset (h6 c h)

/-- One iteration of the caller loop preserves the traversal invariant: the
new step's key is entered into the visited set before the step is appended,
so everything the recursion appends is distinct from it. -/
theorem traceStep_extension (env : TraceEnv) (n : Nat)
    (ihP : ∀ (file : GoStr) (line col : Nat) (stack : List ChainStep) (st : TracerState),
      st.visited <+: (traceChain env n file line col stack st).visited ∧
      ∃ new, (traceChain env n file line col stack st).results = st.results ++ new ∧
        ∀ c ∈ new, ExtOK st.visited stack c)
    (stack : List ChainStep) (st1 st3 : TracerState) (newStep : ChainStep)
    (next : TracerState)
    (hnext : (∃ f l c, next = traceChain env n f l c (stack ++ [newStep]) st3) ∨
             next = recordResult env st3 (stack ++ [newStep]))
    (hv : stepKey newStep ∉ st1.visited)
    (hv3 : st3.visited = st1.visited ++ [stepKey newStep])
    (hr3 : st3.results = st1.results) :
    st1.visited <+: next.visited ∧
    ∃ new, next.results = st1.results ++ new ∧ ∀ c ∈ new, ExtOK st1.visited stack c := by
  have hpre : st1.visited <+: st3.visited := by rw [hv3]; exact List.prefix_append _ _
  rcases hnext with ⟨f, l, c, rfl⟩ | rfl
  · obtain ⟨ha, new, hb, hc⟩ := ihP f l c (stack ++ [newStep]) st3
    refine ⟨hpre.trans ha, new, by rw [hb, hr3], ?_⟩
    intro ch hch
    obtain ⟨ext, hceq, hnd, hnv⟩ := hc ch hch
    refine ⟨newStep :: ext, by rw [hceq]; simp, ?_, ?_⟩
    · rw [List.map_cons, List.nodup_cons]
      refine ⟨?_, hnd⟩
      intro hmem
      obtain ⟨s, hs, hks⟩ := List.mem_map.mp hmem
      have hnot := hnv s hs
      rw [hv3] at hnot
      exact hnot (by rw [hks]; exact List.mem_append_right _ (by simp))
    · intro s hs
      rcases List.mem_cons.mp hs with rfl | hs2
      · exact hv
      · intro hmem
        exact hnv s hs2 (by rw [hv3]; exact List.mem_append_left _ hmem)
  · obtain ⟨hvv, app, hra, happ⟩ := recordResult_state env st3 (stack ++ [newStep])
    refine ⟨by rw [hvv]; exact hpre, app, by rw [hra, hr3], ?_⟩
    intro ch hch
    rw [happ ch hch]
    refine ⟨[newStep], rfl, by simp, ?_⟩
    intro s hs
    rcases List.mem_cons.mp hs with rfl | hs2
    · exact hv
    · simp at hs2

/-- C5 as amended. Every chain that `TraceChain` adds to the result store
extends the stack it was invoked with by steps whose `(file, line)` keys are
pairwise distinct and were all unvisited at the time of the call: each caller
location is entered into the visited set before its step is appended and
already-visited locations are skipped, so the traversal halts with finite,
duplicate-free extensions. (The steps of the initial stack — the sink step —
are not covered by the visited guard; the counterexample shows a recorded
chain whose sink step is duplicated by a caller step.) -/
theorem c5_tracechain_extension_nodup (fuel : Nat) :
    ∀ (env : TraceEnv) (file : GoStr) (line col : Nat)
      (stack : List ChainStep) (st : TracerState),
      st.visited <+: (traceChain env fuel file line col stack st).visited ∧
      ∃ new, (traceChain env fuel file line col stack st).results = st.results ++ new ∧
        ∀ c ∈ new, ExtOK st.visited stack c := by
  induction fuel with
  | zero =>
    intro env file line col stack st
    simp only [traceChain]
    exact ⟨List.prefix_refl _, [], by simp, by simp⟩
  | succ n ih =>
    intro env file line col stack st
    simp only [traceChain]
    split_ifs with hentry hempty
    · exact recordResult_extension env st stack
    · exact recordResult_extension env st stack
    · apply foldl_extension
      intro st1 ref
      dsimp only
      by_cases hv : (fromUri ref.uri, ref.line) ∈ st1.visited
      · rw [if_pos hv]
        exact ⟨List.prefix_refl _, [], by simp, by simp⟩
      · rw [if_neg hv]
        obtain ⟨hgv, hgr⟩ := getEnclosingFunction_state env
          { st1 with visited := st1.visited ++ [(fromUri ref.uri, ref.line)] } ref.uri ref.line
        split_ifs with hname hfl hfl2 <;>
          first
          | exact traceStep_extension env n (fun f l c s t => ih env f l c s t) stack st1 _ _ _
              (Or.inl ⟨_, _, _, rfl⟩) hv hgv hgr
          | exact traceStep_extension env n (fun f l c s t => ih env f l c s t) stack st1 _ _ _
              (Or.inr rfl) hv hgv hgr
/-- Lines of `/A.java` in the counterexample run: a method `f` defined at
line 2 whose body calls a sink-bearing line 9; no framework-entry markers. -/
def c5linesA : List GoStr :=
  [gs "package demo;", gs "public class A", gs "void f()", gs "",
   gs "int a;", gs "", gs "", gs "", gs "", gs "f(1);", gs "", gs ""]

/-- Lines of `/B.java`: a method `g` defined at line 1 calling `f` at line 3. -/
def c5linesB : List GoStr :=
  [gs "package demo;", gs "void g()", gs "", gs "f(1);", gs "",
   gs "", gs "", gs "", gs "", gs ""]

/-- Symbol tree of `/A.java`: method `f`, kind 12, range 2–20, selection
start (2, 4). -/
def c5symsA : DocSymList := .cons (.node (gs "f") 12 2 20 2 4 .nil) .nil

/-- Symbol tree of `/B.java`: method `g`, kind 12, range 1–8, selection
start (1, 4). -/
def c5symsB : DocSymList := .cons (.node (gs "g") 12 1 8 1 4 .nil) .nil

/-- Counterexample environment: references of `f` (requested at its selection
position (2, 4)) are the sink line `/A.java:9` itself and a caller in
`/B.java:3`; `g` has no references. -/
def c5env : TraceEnv :=
  { wd := gs "/wd"
  , fileLines := fun p =>
      if p = gs "/A.java" then some c5linesA
      else if p = gs "/B.java" then some c5linesB
      else none
  , references := fun uri line col _attempt =>
      if uri = gs "file:///A.java" ∧ line = 2 ∧ col = 4 then
        some [⟨gs "file:///A.java", 9⟩, ⟨gs "file:///B.java", 3⟩]
      else none
  , docSymbols := fun uri =>
      if uri = gs "file:///A.java" then some c5symsA
      else if uri = gs "file:///B.java" then some c5symsB
      else none }

/-- The initial sink step at `/A.java:9`, as `ScanAndTrace` would build it. -/
def c5step0 : ChainStep :=
  ⟨gs "/A.java", 9, gs "Sink Detection", gs "f(1);", []⟩

/-- C5 counterexample. Running the trace from the sink's enclosing function
`f` (at `/A.java:(2,4)`) with the sink step `/A.java:9` as initial stack
records exactly one chain: its first step (the sink) and its second step (the
reference of `f` on the sink's own line) carry the same `(file, line)` pair
`(/A.java, 9)` — the stored chain has two steps with identical location,
because the sink step is never entered into the visited set. -/
theorem c5_duplicate_step_recorded :
    (traceChain c5env 3 (gs "/A.java") 2 4 [c5step0] ⟨[], [], [], false⟩).results =
        [[c5step0,
          ⟨gs "/A.java", 9, gs "f", gs "f(1);", []⟩,
          ⟨gs "/B.java", 3, gs "g", gs "f(1);", []⟩]]
      ∧ c5step0.file = (⟨gs "/A.java", 9, gs "f", gs "f(1);", []⟩ : ChainStep).file
      ∧ c5step0.line = (⟨gs "/A.java", 9, gs "f", gs "f(1);", []⟩ : ChainStep).line := by
  decide

/-! ## C10: URI round trip -/

/-- `takeWhile` keeps a list all of whose elements satisfy the predicate. -/
theorem takeWhile_all {p : Char → Bool} :
    ∀ l : GoStr, (∀ c ∈ l, p c = true) → l.takeWhile p = l := by
  intro l
  induction l with
  | nil => intro _; rfl
  | cons c r ih =>
    intro h
    rw [List.takeWhile_cons, if_pos (h c (by simp))]
    rw [ih (fun x hx => h x (by simp [hx]))]

/-- Decoding inverts the uppercase hex digit encoding. -/
theorem hexVal_hexDigitU : ∀ n < 16, hexVal (hexDigitU n) = some n := by decide

/-- Hex digits are none of the URI delimiter characters we case on. -/
theorem hexDigitU_not_special : ∀ n < 16,
    ¬hexDigitU n = '#' ∧ ¬hexDigitU n = '?' ∧ ¬hexDigitU n = '/' := by decide

/-- Every character of an escaped path is a percent sign, a hex digit, or an
unescaped (kept) byte. -/
theorem escapePath_chars (p : GoStr) :
    ∀ c ∈ escapePath p,
      c = '%' ∨ (∃ n, n < 16 ∧ c = hexDigitU n) ∨ shouldEscapePathByte c = false := by
  induction p with
  | nil => intro c hc; simp [escapePath] at hc
  | cons x r ih =>
    intro c hc
    rw [escapePath] at hc
    rcases List.mem_append.mp hc with hc1 | hc2
    · by_cases hesc : shouldEscapePathByte x
      · rw [if_pos hesc] at hc1
        simp only [List.mem_cons, List.not_mem_nil, or_false] at hc1
        rcases hc1 with rfl | rfl | rfl
        · exact Or.inl rfl
        · exact Or.inr (Or.inl ⟨x.toNat / 16 % 16, Nat.mod_lt _ (by norm_num), rfl⟩)
        · exact Or.inr (Or.inl ⟨x.toNat % 16, Nat.mod_lt _ (by norm_num), rfl⟩)
      · rw [if_neg hesc] at hc1
        simp only [List.mem_cons, List.not_mem_nil, or_false] at hc1
        rcases hc1 with rfl
        exact Or.inr (Or.inr (by simpa using hesc))
    · exact ih c hc2

/-- An escaped path contains neither `#` nor `?` (both are always escaped). -/
theorem escapePath_no_hash_qm (p : GoStr) :
    ∀ c ∈ escapePath p, (c = '#') = False ∧ (c = '?') = False := by
  intro c hc
  rcases escapePath_chars p c hc with rfl | ⟨n, hn, rfl⟩ | hkeep
  · exact ⟨by simp, by simp⟩
  · have := hexDigitU_not_special n hn
    exact ⟨by simp [this.1], by simp [this.2.1]⟩
  · constructor
    · simp only [eq_iff_iff, iff_false]
      intro h
      rw [h] at hkeep
      exact absurd hkeep (by decide)
    · simp only [eq_iff_iff, iff_false]
      intro h
      rw [h] at hkeep
      exact absurd hkeep (by decide)

/-- Percent-decoding inverts percent-encoding on byte strings. -/
theorem unescape_escape (p : GoStr) (hb : ∀ c ∈ p, c.toNat < 256) :
    unescapePath (escapePath p) = some p := by
  induction p with
  | nil => rfl
  | cons c r ih =>
    have hc : c.toNat < 256 := hb c (by simp)
    have hr : unescapePath (escapePath r) = some r := ih (fun x hx => hb x (by simp [hx]))
    rw [escapePath]
    by_cases hesc : shouldEscapePathByte c
    · rw [if_pos hesc]
      simp only [List.cons_append, List.nil_append]
      rw [unescapePath.eq_def]
      dsimp only
      rw [if_pos rfl]
      rw [hexVal_hexDigitU _ (Nat.mod_lt _ (by norm_num)),
          hexVal_hexDigitU _ (Nat.mod_lt _ (by norm_num))]
      dsimp only
      rw [hr]
      have hofn : Char.ofNat (16 * (c.toNat / 16 % 16) + c.toNat % 16) = c := by
        have hmod : c.toNat / 16 % 16 = c.toNat / 16 := Nat.mod_eq_of_lt (by omega)
        rw [hmod, Nat.div_add_mod, Char.ofNat_toNat]
      simp only [hofn]
      rfl
    · rw [if_neg hesc]
      have hne : ¬c = '%' := by
        intro hcp
        rw [hcp] at hesc
        exact hesc (by decide)
      simp only [List.cons_append, List.nil_append]
      rw [unescapePath.eq_def]
      dsimp only
      rw [if_neg hne, hr]
      rfl

/-- C10 as amended. On a non-Windows system, for every absolute local path
that is clean (`filepath.Clean` leaves it unchanged — no trailing slash, no
empty or dot segments), decoding the encoded URI returns the original path,
including paths containing spaces and other percent-escaped bytes.
(`ToUri` first runs `filepath.Abs`, which cleans the path, so for non-clean
absolute paths the round trip returns the cleaned path instead — see the
counterexample.) -/
theorem c10_uri_roundtrip_clean_abs (wd p : GoStr)
    (habs : isAbsPath p = true) (hclean : goClean p = p)
    (hb : ∀ c ∈ p, c.toNat < 256) :
    fromUri (toUri wd p) = p := by
  obtain ⟨p', rfl⟩ : ∃ p', p = '/' :: p' := by
    unfold isAbsPath at habs
    obtain ⟨t, ht⟩ := List.isPrefixOf_iff_prefix.mp habs
    exact ⟨t, ht.symm⟩
  have hesc0 : escapePath ('/' :: p') = '/' :: escapePath p' := by
    rw [escapePath, if_neg (by decide)]
    rfl
  have htu : toUri wd ('/' :: p') = gs "file://" ++ escapePath ('/' :: p') := by
    unfold toUri goAbs
    rw [if_pos habs, hclean]
  rw [htu]
  unfold fromUri
  have hnofrag : (gs "file://" ++ escapePath ('/' :: p')).takeWhile (fun c => c ≠ '#')
      = gs "file://" ++ escapePath ('/' :: p') := by
    apply takeWhile_all
    intro c hc
    rcases List.mem_append.mp hc with h | h
    · fin_cases h <;> decide
    · have := (escapePath_no_hash_qm _ c h).1
      simp [this]
  have hscheme : schemeScan (gs "file://" ++ escapePath ('/' :: p'))
      (gs "file://" ++ escapePath ('/' :: p')) false
      = some (true, '/' :: '/' :: escapePath ('/' :: p')) := rfl
  have hq : ('/' :: '/' :: escapePath ('/' :: p')).takeWhile (fun c => c ≠ '?')
      = '/' :: '/' :: escapePath ('/' :: p') := by
    apply takeWhile_all
    intro c hc
    rcases List.mem_cons.mp hc with rfl | hc
    · decide
    · rcases List.mem_cons.mp hc with rfl | hc
      · decide
      · have := (escapePath_no_hash_qm _ c hc).2
        simp [this]
  have hparse : urlParsePath (gs "file://" ++ escapePath ('/' :: p')) = some ('/' :: p') := by
    unfold urlParsePath
    rw [hnofrag]
    dsimp only
    rw [hscheme]
    dsimp only
    rw [hq]
    rw [if_neg (by simp; exact ⟨_, rfl⟩)]
    rw [if_neg (by simp)]
    rw [if_pos (by rfl)]
    show unescapePath (escapePath ('/' :: p')) = some ('/' :: p')
    exact unescape_escape _ hb
  rw [hparse]

/-- C10 counterexample. `/a/` is an absolute local path, but
`FromUri(ToUri("/a/"))` is `/a`, not `/a/`: `filepath.Abs` inside `ToUri`
cleans the path, so the round trip is not the identity on every absolute
path. -/
theorem c10_uri_roundtrip_unclean_path :
    isAbsPath (gs "/a/") = true
      ∧ fromUri (toUri (gs "/wd") (gs "/a/")) = gs "/a"
      ∧ ¬(gs "/a" = gs "/a/") := by decide

/-- Witness for the amended C10 theorem on a clean absolute path containing a
space (which `ToUri` percent-escapes). -/
theorem c10_uri_roundtrip_clean_abs_witness :
    isAbsPath (gs "/tmp/a b") = true
      ∧ goClean (gs "/tmp/a b") = gs "/tmp/a b"
      ∧ (∀ c ∈ gs "/tmp/a b", c.toNat < 256)
      ∧ fromUri (toUri (gs "/wd") (gs "/tmp/a b")) = gs "/tmp/a b" :=
  ⟨by decide, by decide, by decide,
   c10_uri_roundtrip_clean_abs (gs "/wd") (gs "/tmp/a b") (by decide) (by decide) (by decide)⟩

/-! ## C9: request-id allocation and response handling -/

/-- C9 counterexample. The client has no pending-response registry: with
requests 1 and 2 issued and both replies already delivered on stdout, waiting
for id 2 reads and discards the reply to id 1 (nothing remains of the
stream), so a subsequent wait for id 1 can only time out even though its
reply arrived well before any deadline. Under the claimed slot-registry
semantics the reply to id 1 would have been retained in its slot. -/
theorem c9_no_pending_slot_lost_reply :
    sendRequest ⟨0, []⟩ (gs "textDocument/definition") = (1, ⟨1, [(1, gs "textDocument/definition")]⟩)
      ∧ waitForResult 2 [⟨some 1, false, gs "r1"⟩, ⟨some 2, false, gs "r2"⟩] =
          (.ok (gs "r2"), [])
      ∧ waitForResult 1 [] = (.errTimeout, []) := by decide

/-- C9 as amended. `SendRequest` allocates, under the client mutex, an id
strictly greater than every previously allocated id (the successor of the
counter) and then writes the frame; no response slot is registered because
the client keeps no pending-response registry. `WaitForResult` instead scans
the child's stdout directly: it drops every frame whose id differs from its
target, resolves on the first frame carrying the target id (error or
result), and reports a timeout when the stream is exhausted. -/
theorem c9_monotonic_ids_direct_scan (st : ClientState) (method : GoStr)
    (hinv : ∀ q ∈ st.written, q.1 ≤ st.msgId) :
    ((sendRequest st method).1 = st.msgId + 1
      ∧ (∀ q ∈ st.written, q.1 < (sendRequest st method).1)
      ∧ (sendRequest st method).2.written = st.written ++ [((sendRequest st method).1, method)]
      ∧ (∀ q ∈ (sendRequest st method).2.written, q.1 ≤ (sendRequest st method).2.msgId))
    ∧ (∀ (pre post : List RpcMsg) (m : RpcMsg) (target : Nat),
        (∀ x ∈ pre, x.id ≠ some target) → m.id = some target →
        waitForResult target (pre ++ m :: post) =
          ((if m.isError then .errServer else .ok m.result), post))
    ∧ (∀ (msgs : List RpcMsg) (target : Nat),
        (∀ x ∈ msgs, x.id ≠ some target) →
        waitForResult target msgs = (.errTimeout, [])) := by
  refine ⟨⟨rfl, ?_, rfl, ?_⟩, ?_, ?_⟩
  · intro q hq
    exact Nat.lt_succ_of_le (hinv q hq)
  · intro q hq
    rcases List.mem_append.mp hq with h | h
    · exact Nat.le_succ_of_le (hinv q h)
    · simp at h
      rw [h]
      exact Nat.le_refl _
  · intro pre
    induction pre with
    | nil =>
      intro post m target _ hm
      rw [List.nil_append, waitForResult, if_pos hm]
      split <;> rfl
    | cons x rest ih =>
      intro post m target hpre hm
      rw [List.cons_append, waitForResult,
        if_neg (hpre x (by simp)), ih post m target (fun y hy => hpre y (by simp [hy])) hm]
  · intro msgs
    induction msgs with
    | nil => intro target _; rfl
    | cons x rest ih =>
      intro target hall
      rw [waitForResult, if_neg (hall x (by simp)), ih target (fun y hy => hall y (by simp [hy]))]

/-- Witness for the amended C9 theorem at a concrete client state and
stream. -/
theorem c9_monotonic_ids_direct_scan_witness :
    ((sendRequest ⟨2, [(1, gs "initialize"), (2, gs "initialized")]⟩ (gs "textDocument/references")).1 = 3
      ∧ (∀ q ∈ [(1, gs "initialize"), (2, gs "initialized")], q.1 < 3)
      ∧ (sendRequest ⟨2, [(1, gs "initialize"), (2, gs "initialized")]⟩ (gs "textDocument/references")).2.written
          = [(1, gs "initialize"), (2, gs "initialized")] ++ [(3, gs "textDocument/references")]
      ∧ True)
    ∧ waitForResult 3 [⟨some 2, false, gs "r2"⟩, ⟨some 3, false, gs "r3"⟩] = (.ok (gs "r3"), []) := by
  have h := c9_monotonic_ids_direct_scan ⟨2, [(1, gs "initialize"), (2, gs "initialized")]⟩
    (gs "textDocument/references") (by decide)
  refine ⟨⟨h.1.1, ?_, h.1.2.2.1, trivial⟩, ?_⟩
  · intro q hq
    have := h.1.2.1 q hq
    rwa [h.1.1] at this
  · have h2 := h.2.1 [⟨some 2, false, gs "r2"⟩] [] ⟨some 3, false, gs "r3"⟩ 3 (by decide) rfl
    simpa using h2

/-! ## C8: depth of the copy in RecordResult -/

/-- C8 counterexample. After `RecordResult` stores its copy, overwriting an
element of a step's `Analysis` through the worker's still-shared slice header
changes the stored chain: the copy is one level deep, not deep. -/
theorem c8_analysis_overwrite_reaches_store :
    resolveChain ⟨[[⟨gs "/A.java", 0, gs "f", gs "f(x);", ⟨0, 0, 1⟩⟩]], [[gs "note"]]⟩
        (recordCopy ⟨[[⟨gs "/A.java", 0, gs "f", gs "f(x);", ⟨0, 0, 1⟩⟩]], [[gs "note"]]⟩ ⟨0, 0, 1⟩)
        = [⟨gs "/A.java", 0, gs "f", gs "f(x);", [gs "note"]⟩]
      ∧ resolveChain
          (setAnalysisElem ⟨[[⟨gs "/A.java", 0, gs "f", gs "f(x);", ⟨0, 0, 1⟩⟩]], [[gs "note"]]⟩
            ⟨0, 0, 1⟩ 0 (gs "evil"))
          (recordCopy ⟨[[⟨gs "/A.java", 0, gs "f", gs "f(x);", ⟨0, 0, 1⟩⟩]], [[gs "note"]]⟩ ⟨0, 0, 1⟩)
        = [⟨gs "/A.java", 0, gs "f", gs "f(x);", [gs "evil"]⟩] := by decide

/-- Writes at or past a slice's visible window do not change what the slice
reads. -/
theorem readSlice_set_outside {α : Type} (arrays : List (List α)) (r : SliceRef)
    (k : Nat) (hk : r.off + r.len ≤ k) (v : α) :
    readSlice (arrays.set r.arr ((arrays.getD r.arr []).set k v)) r = readSlice arrays r := by
  unfold readSlice
  by_cases harr : r.arr < arrays.length
  · rw [List.getD_eq_getElem _ _ (by simpa using harr)]
    rw [List.getElem_set_self (by simpa using harr)]
    rw [List.getD_eq_getElem _ _ harr]
    apply List.ext_getElem
    · simp
    · intro i h1 h2
      have hi : i < r.len := by
        have := h1
        rw [List.length_take] at this
        exact lt_of_lt_of_le this (min_le_left _ _)
      rw [List.getElem_take, List.getElem_drop, List.getElem_take, List.getElem_drop,
        List.getElem_set_ne (by omega)]
  · have hlen : arrays.length ≤ r.arr := Nat.le_of_not_lt harr
    rw [List.set_eq_of_length_le hlen]
/-- Writing a different backing array does not change what a slice reads. -/
theorem readSlice_set_other {α : Type} (arrays : List (List α)) (r : SliceRef)
    (aidx : Nat) (w : List α) (hne : r.arr ≠ aidx) :
    readSlice (arrays.set aidx w) r = readSlice arrays r := by
  unfold readSlice
  rw [List.getD_eq_getElem?_getD, List.getD_eq_getElem?_getD,
    List.getElem?_set_ne (fun h => hne h.symm)]

/-- Allocating a fresh backing array does not change what an existing slice
reads. -/
theorem readSlice_append {α : Type} (arrays : List (List α)) (w : List α)
    (r : SliceRef) (hr : r.arr < arrays.length) :
    readSlice (arrays ++ [w]) r = readSlice arrays r := by
  unfold readSlice
  rw [List.getD_eq_getElem _ _ (by rw [List.length_append]; omega),
    List.getD_eq_getElem _ _ hr, List.getElem_append_left hr]

/-- C8 as amended. The stored chain is a one-level copy of the worker's
stack: overwriting a stack element, appending to the stack, and appending
through a step's `Analysis` reference all leave the stored chain unchanged;
only overwriting an existing `Analysis` element mutates it (the
counterexample). The hypotheses say that the analysis references of the
stored steps are live (in range) and either equal the appended-through
reference or live in a different backing array — which is how worker stacks
are actually laid out. -/
theorem c8_one_level_copy_isolation (h : SliceHeap) (stack : SliceRef)
    (i : Nat) (v : StepVal) (aref : SliceRef) (s : GoStr)
    (hshare : ∀ t ∈ recordCopy h stack,
      t.analysis.arr < h.strArrays.length ∧
        (t.analysis = aref ∨ t.analysis.arr ≠ aref.arr)) :
    resolveChain (setStackElem h stack i v) (recordCopy h stack)
        = resolveChain h (recordCopy h stack)
      ∧ resolveChain (appendStack h stack v).1 (recordCopy h stack)
        = resolveChain h (recordCopy h stack)
      ∧ resolveChain (appendAnalysis h aref s).1 (recordCopy h stack)
        = resolveChain h (recordCopy h stack) := by
  refine ⟨rfl, ?_, ?_⟩
  · unfold appendStack
    dsimp only
    split
    · rfl
    · rfl
  · unfold appendAnalysis
    dsimp only
    split
    · unfold resolveChain
      apply List.map_congr_left
      intro t ht
      rcases (hshare t ht).2 with heq | hne
      · rw [heq]
        dsimp only
        rw [readSlice_set_outside h.strArrays aref (aref.off + aref.len) (le_refl _) s]
      · dsimp only
        rw [readSlice_set_other h.strArrays t.analysis aref.arr _ hne]
    · unfold resolveChain
      apply List.map_congr_left
      intro t ht
      dsimp only
      rw [readSlice_append h.strArrays _ t.analysis (hshare t ht).1]

/-- Witness for the amended C8 theorem at the counterexample's heap. -/
theorem c8_one_level_copy_isolation_witness :
    resolveChain
        (setStackElem ⟨[[⟨gs "/A.java", 0, gs "f", gs "f(x);", ⟨0, 0, 1⟩⟩]], [[gs "note"]]⟩
          ⟨0, 0, 1⟩ 0 ⟨gs "/B.java", 1, gs "g", gs "g();", ⟨0, 0, 1⟩⟩)
        (recordCopy ⟨[[⟨gs "/A.java", 0, gs "f", gs "f(x);", ⟨0, 0, 1⟩⟩]], [[gs "note"]]⟩ ⟨0, 0, 1⟩)
      = resolveChain ⟨[[⟨gs "/A.java", 0, gs "f", gs "f(x);", ⟨0, 0, 1⟩⟩]], [[gs "note"]]⟩
        (recordCopy ⟨[[⟨gs "/A.java", 0, gs "f", gs "f(x);", ⟨0, 0, 1⟩⟩]], [[gs "note"]]⟩ ⟨0, 0, 1⟩) :=
  (c8_one_level_copy_isolation ⟨[[⟨gs "/A.java", 0, gs "f", gs "f(x);", ⟨0, 0, 1⟩⟩]], [[gs "note"]]⟩
    ⟨0, 0, 1⟩ 0 ⟨gs "/B.java", 1, gs "g", gs "g();", ⟨0, 0, 1⟩⟩ ⟨0, 0, 1⟩ (gs "evil")
    (by decide)).1

end LSPTracer
